import Mathlib

/-!
Verification of the ghostnote repository (src/ghostnote/utils.py) against its
natural-language specification.  The numeric code operates on real-valued
quantities (numpy floats); we embed it over the real numbers.

Conventions of the embedding:
* numpy's arctan2 is modelled through the argument of a complex number
  (range (-pi, pi], with arctan2 0 0 = 0, matching numpy on reals);
* the Python float modulo x % m (m > 0) is modelled by fmod, yielding a
  representative in [0, m);
* numpy's round (half to even) is modelled by npRound;
* cartesian_to_spherical divides z by r = sqrt(x^2+y^2+z^2); at the origin
  this is 0/0, an invalid (NaN-producing) operation, which the code's callers
  treat as a domain error.  We model the function as returning an Option,
  with none exactly on that domain-error branch.
-/

namespace Ghostnote

/-- Conversion from radians to degrees, as numpy's degrees. -/
noncomputable def degrees (x : ℝ) : ℝ := x * 180 / Real.pi

/-- Conversion from degrees to radians, as numpy's radians. -/
noncomputable def radians (x : ℝ) : ℝ := x * Real.pi / 180

/-- numpy's arctan2 y x over the reals: the argument of the complex number
x + y*i, which lies in (-pi, pi] and is 0 at the origin. -/
noncomputable def arctan2 (y x : ℝ) : ℝ := Complex.arg ⟨x, y⟩

/-- Python's float modulo x % m: the representative of x modulo m lying in
[0, m) when m > 0. -/
noncomputable def fmod (x m : ℝ) : ℝ := x - m * ⌊x / m⌋

/-- numpy's round: round half to even, other values to the nearest integer. -/
noncomputable def npRound (x : ℝ) : ℤ :=
  if Int.fract x = 1 / 2 then (if 2 ∣ ⌊x⌋ then ⌊x⌋ else ⌊x⌋ + 1) else round x

/-- Embedding of cartesian_to_polar from src/ghostnote/utils.py.  The optional
argument mirrors the Python default r=None (no normalization). -/
noncomputable def cartesian_to_polar (x y : ℝ) (rnorm : Option ℝ := none) :
    ℝ × ℝ :=
  let r : ℝ :=
    match rnorm with
    | none => Real.sqrt (x ^ 2 + y ^ 2)
    | some r0 => Real.sqrt (x ^ 2 + y ^ 2) / r0
  let phi_radians := fmod (arctan2 y x) (2 * Real.pi)
  (r, degrees phi_radians)

/-- Embedding of polar_to_cartesian from src/ghostnote/utils.py. -/
noncomputable def polar_to_cartesian (r phi : ℝ) : ℝ × ℝ :=
  let phi_radians := radians phi
  (r * Real.cos phi_radians, r * Real.sin phi_radians)

/-- Embedding of spherical_to_cartesian from src/ghostnote/utils.py. -/
noncomputable def spherical_to_cartesian (r phi theta : ℝ) : ℝ × ℝ × ℝ :=
  let phi_radians := radians phi
  let theta2 := if theta < 0 then -theta else 90 - theta
  let theta_radians := radians theta2
  (r * Real.cos phi_radians * Real.sin theta_radians,
   r * Real.sin phi_radians * Real.sin theta_radians,
   r * Real.cos theta_radians)

/-- Embedding of cartesian_to_spherical from src/ghostnote/utils.py.  When
r = 0 the source divides 0 by 0 (an invalid operation propagating NaN, the
domain-error condition of the spec); this is the none branch. -/
noncomputable def cartesian_to_spherical (x y z : ℝ) : Option (ℝ × ℝ × ℝ) :=
  let r := Real.sqrt (x ^ 2 + y ^ 2 + z ^ 2)
  if r = 0 then none
  else
    let phi_radians := fmod (arctan2 y x) (2 * Real.pi)
    let theta := degrees (Real.arccos (z / r))
    let theta2 := if theta < 0 then -theta else 90 - theta
    some (r, degrees phi_radians, theta2)

/- Helper lemmas about the embedding primitives. -/

theorem fmod_nonneg (x : ℝ) {m : ℝ} (hm : 0 < m) : 0 ≤ fmod x m := by
  have h := Int.fract_nonneg (x / m)
  have : fmod x m = m * Int.fract (x / m) := by
    unfold fmod Int.fract
    field_simp
  rw [this]
  positivity

theorem fmod_lt (x : ℝ) {m : ℝ} (hm : 0 < m) : fmod x m < m := by
  have h := Int.fract_lt_one (x / m)
  have heq : fmod x m = m * Int.fract (x / m) := by
    unfold fmod Int.fract
    field_simp
  rw [heq]
  calc m * Int.fract (x / m) < m * 1 := by
        exact mul_lt_mul_of_pos_left h hm
    _ = m := mul_one m

theorem fmod_zero_left {m : ℝ} : fmod 0 m = 0 := by
  simp [fmod]

theorem cos_fmod_two_pi (x : ℝ) :
    Real.cos (fmod x (2 * Real.pi)) = Real.cos x := by
  unfold fmod
  rw [mul_comm (2 * Real.pi) (⌊x / (2 * Real.pi)⌋ : ℝ)]
  exact Real.cos_sub_int_mul_two_pi x _

theorem sin_fmod_two_pi (x : ℝ) :
    Real.sin (fmod x (2 * Real.pi)) = Real.sin x := by
  unfold fmod
  have := Real.sin_periodic.sub_int_mul_eq (x := x) ⌊x / (2 * Real.pi)⌋
  rw [mul_comm (2 * Real.pi) (⌊x / (2 * Real.pi)⌋ : ℝ)]
  exact this

theorem radians_degrees (x : ℝ) : radians (degrees x) = x := by
  unfold radians degrees
  field_simp

theorem sum_three_sq_eq_zero_iff (x y z : ℝ) :
    Real.sqrt (x ^ 2 + y ^ 2 + z ^ 2) = 0 ↔ x = 0 ∧ y = 0 ∧ z = 0 := by
  rw [Real.sqrt_eq_zero']
  constructor
  · intro h
    refine ⟨?_, ?_, ?_⟩ <;> nlinarith [sq_nonneg x, sq_nonneg y, sq_nonneg z]
  · rintro ⟨hx, hy, hz⟩
    simp [hx, hy, hz]

/-- Claim C7: for every real input (x, y) (with or without a normalization radius),
the angle phi returned by cartesian_to_polar lies in [0, 360) degrees, and at
x = y = 0 the returned phi is 0. -/
theorem cartesian_to_polar_phi_range :
    (∀ (x y : ℝ) (rnorm : Option ℝ),
        0 ≤ (cartesian_to_polar x y rnorm).2 ∧
          (cartesian_to_polar x y rnorm).2 < 360) ∧
      ∀ rnorm : Option ℝ, (cartesian_to_polar 0 0 rnorm).2 = 0 := by
  have hdeg : ∀ t : ℝ, 0 ≤ t → t < 2 * Real.pi →
      0 ≤ degrees t ∧ degrees t < 360 := by
    intro t ht0 ht2
    have hpi := Real.pi_pos
    constructor
    · unfold degrees
      positivity
    · unfold degrees
      rw [div_lt_iff₀ hpi]
      nlinarith
  constructor
  · intro x y rnorm
    have h0 := fmod_nonneg (arctan2 y x) Real.two_pi_pos
    have h1 := fmod_lt (arctan2 y x) Real.two_pi_pos
    exact hdeg _ h0 h1
  · intro rnorm
    have harg : arctan2 0 0 = 0 := by
      unfold arctan2
      have : (⟨0, 0⟩ : ℂ) = 0 := by
        simp [Complex.ext_iff]
      rw [this, Complex.arg_zero]
    simp [cartesian_to_polar, harg, fmod_zero_left, degrees]

/-- Claim C4: cartesian_to_spherical hits its domain-error (undefined-value) branch
exactly when the input is the origin; for every other input it returns a
value. -/
theorem cartesian_to_spherical_none_iff (x y z : ℝ) :
    cartesian_to_spherical x y z = none ↔ x = 0 ∧ y = 0 ∧ z = 0 := by
  have hs := sum_three_sq_eq_zero_iff x y z
  simp only [cartesian_to_spherical]
  split
  · next h => simpa using hs.mp h
  · next h =>
      simpa using fun hx hy hz => h (hs.mpr ⟨hx, hy, hz⟩)

/-- Claim C8: for every (x, y) other than the origin, polar_to_cartesian applied to
the (r, phi) pair returned by cartesian_to_polar (with no normalization
radius) recovers (x, y) exactly over the reals. -/
theorem polar_roundtrip (x y : ℝ) (h : (x, y) ≠ ((0 : ℝ), (0 : ℝ))) :
    polar_to_cartesian (cartesian_to_polar x y none).1
      (cartesian_to_polar x y none).2 = (x, y) := by
  have hz : (⟨x, y⟩ : ℂ) ≠ 0 := by
    intro hc
    apply h
    rw [Complex.ext_iff] at hc
    simp only [Complex.zero_re, Complex.zero_im] at hc
    simp [Prod.ext_iff, hc.1, hc.2]
  have habs : Real.sqrt (x ^ 2 + y ^ 2) = Complex.abs ⟨x, y⟩ := by
    rw [Complex.abs_apply, Complex.normSq_mk]
    congr 1
    ring
  have habs_ne : Complex.abs ⟨x, y⟩ ≠ 0 := by
    simpa using hz
  simp only [cartesian_to_polar, polar_to_cartesian, arctan2]
  rw [radians_degrees, cos_fmod_two_pi, sin_fmod_two_pi, habs,
    Complex.cos_arg hz, Complex.sin_arg]
  simp only [Prod.ext_iff]
  constructor
  · field_simp
  · field_simp

/-- Claim C5: cartesian_to_spherical is not an exact inverse of
spherical_to_cartesian: there is an input with r > 0 (here (1, 0, -90)) on
which the round trip does not return the original triple. -/
theorem spherical_roundtrip_fails :
    ∃ r phi theta : ℝ, 0 < r ∧
      cartesian_to_spherical (spherical_to_cartesian r phi theta).1
          (spherical_to_cartesian r phi theta).2.1
          (spherical_to_cartesian r phi theta).2.2 ≠
        some (r, phi, theta) := by
  refine ⟨1, 0, -90, by norm_num, ?_⟩
  have hrad0 : radians 0 = 0 := by
    unfold radians
    ring
  have hrad90 : radians 90 = Real.pi / 2 := by
    unfold radians
    ring
  have hs2c : spherical_to_cartesian 1 0 (-90) = (1, 0, 0) := by
    simp only [spherical_to_cartesian]
    rw [if_pos (by norm_num : (-90 : ℝ) < 0)]
    norm_num [hrad0, hrad90, Real.cos_pi_div_two, Real.sin_pi_div_two]
  rw [hs2c]
  have harg : arctan2 0 1 = 0 := by
    unfold arctan2
    have h1 : (⟨1, 0⟩ : ℂ) = 1 := by
      simp [Complex.ext_iff]
    rw [h1, Complex.arg_one]
  have hdeg0 : degrees 0 = 0 := by
    unfold degrees
    ring
  have hdeg_pi_div_two : degrees (Real.pi / 2) = 90 := by
    unfold degrees
    field_simp
    ring
  simp only [cartesian_to_spherical]
  rw [if_neg (by norm_num : ¬Real.sqrt ((1 : ℝ) ^ 2 + 0 ^ 2 + 0 ^ 2) = 0)]
  norm_num [harg, fmod_zero_left, hdeg0, Real.arccos_zero, hdeg_pi_div_two]
  intro hc
  rw [Prod.ext_iff] at hc
  norm_num at hc

/-- Claim C6: spherical_to_cartesian maps theta to the polar angle 90 - theta when
theta is nonnegative and to -theta when theta is negative, before the standard
spherical-to-cartesian formulas; concretely (1, 0, 90) maps to (0, 0, 1) and
(1, 0, -90) maps to (1, 0, 0). -/
theorem spherical_theta_convention :
    (∀ r phi theta : ℝ, 0 ≤ theta →
        spherical_to_cartesian r phi theta =
          (r * Real.cos (radians phi) * Real.sin (radians (90 - theta)),
           r * Real.sin (radians phi) * Real.sin (radians (90 - theta)),
           r * Real.cos (radians (90 - theta)))) ∧
      (∀ r phi theta : ℝ, theta < 0 →
          spherical_to_cartesian r phi theta =
            (r * Real.cos (radians phi) * Real.sin (radians (-theta)),
             r * Real.sin (radians phi) * Real.sin (radians (-theta)),
             r * Real.cos (radians (-theta)))) ∧
      spherical_to_cartesian 1 0 90 = (0, 0, 1) ∧
      spherical_to_cartesian 1 0 (-90) = (1, 0, 0) := by
  have hrad0 : radians 0 = 0 := by
    unfold radians
    ring
  have hrad90 : radians 90 = Real.pi / 2 := by
    unfold radians
    ring
  refine ⟨?_, ?_, ?_, ?_⟩
  · intro r phi theta h
    simp only [spherical_to_cartesian]
    rw [if_neg (not_lt.mpr h)]
  · intro r phi theta h
    simp only [spherical_to_cartesian]
    rw [if_pos h]
  · simp only [spherical_to_cartesian]
    rw [if_neg (by norm_num : ¬(90 : ℝ) < 0)]
    norm_num [hrad0]
  · simp only [spherical_to_cartesian]
    rw [if_pos (by norm_num : (-90 : ℝ) < 0)]
    norm_num [hrad0, hrad90, Real.cos_pi_div_two, Real.sin_pi_div_two]

/-- Witness for spherical_theta_convention at (2, 30, 45). -/
theorem spherical_theta_convention_witness :
    (0 : ℝ) ≤ 45 ∧
      spherical_to_cartesian 2 30 45 =
        (2 * Real.cos (radians 30) * Real.sin (radians (90 - 45)),
         2 * Real.sin (radians 30) * Real.sin (radians (90 - 45)),
         2 * Real.cos (radians (90 - 45))) :=
  ⟨by norm_num, spherical_theta_convention.1 2 30 45 (by norm_num)⟩

/-- Claim C10: away from the origin the angle degrees (arccos (z / r)) computed by
cartesian_to_spherical lies in [0, 180], so its negative-theta branch never
fires: the returned theta is 90 minus that angle and lies in [-90, 90]. -/
theorem cartesian_to_spherical_theta_range (x y z : ℝ)
    (h : ¬(x = 0 ∧ y = 0 ∧ z = 0)) :
    0 ≤ degrees (Real.arccos (z / Real.sqrt (x ^ 2 + y ^ 2 + z ^ 2))) ∧
      degrees (Real.arccos (z / Real.sqrt (x ^ 2 + y ^ 2 + z ^ 2))) ≤ 180 ∧
      cartesian_to_spherical x y z =
        some (Real.sqrt (x ^ 2 + y ^ 2 + z ^ 2),
          degrees (fmod (arctan2 y x) (2 * Real.pi)),
          90 - degrees (Real.arccos (z / Real.sqrt (x ^ 2 + y ^ 2 + z ^ 2)))) ∧
      -90 ≤ 90 - degrees (Real.arccos (z / Real.sqrt (x ^ 2 + y ^ 2 + z ^ 2))) ∧
      90 - degrees (Real.arccos (z / Real.sqrt (x ^ 2 + y ^ 2 + z ^ 2))) ≤ 90 := by
  have hr : Real.sqrt (x ^ 2 + y ^ 2 + z ^ 2) ≠ 0 := fun hc =>
    h ((sum_three_sq_eq_zero_iff x y z).mp hc)
  have hpi := Real.pi_pos
  have h0 := Real.arccos_nonneg (z / Real.sqrt (x ^ 2 + y ^ 2 + z ^ 2))
  have h1 := Real.arccos_le_pi (z / Real.sqrt (x ^ 2 + y ^ 2 + z ^ 2))
  have hd0 : 0 ≤ degrees (Real.arccos (z / Real.sqrt (x ^ 2 + y ^ 2 + z ^ 2))) := by
    unfold degrees
    positivity
  have hd180 :
      degrees (Real.arccos (z / Real.sqrt (x ^ 2 + y ^ 2 + z ^ 2))) ≤ 180 := by
    unfold degrees
    rw [div_le_iff₀ hpi]
    nlinarith
  refine ⟨hd0, hd180, ?_, by linarith, by linarith⟩
  simp only [cartesian_to_spherical]
  rw [if_neg hr, if_neg (not_lt.mpr hd0)]

/-- Witness for cartesian_to_spherical_theta_range at (0, 0, 1). -/
theorem cartesian_to_spherical_theta_range_witness :
    ¬((0 : ℝ) = 0 ∧ (0 : ℝ) = 0 ∧ (1 : ℝ) = 0) ∧
      (0 ≤ degrees (Real.arccos (1 / Real.sqrt ((0 : ℝ) ^ 2 + 0 ^ 2 + 1 ^ 2))) ∧
        degrees (Real.arccos (1 / Real.sqrt ((0 : ℝ) ^ 2 + 0 ^ 2 + 1 ^ 2))) ≤ 180 ∧
        cartesian_to_spherical 0 0 1 =
          some (Real.sqrt ((0 : ℝ) ^ 2 + 0 ^ 2 + 1 ^ 2),
            degrees (fmod (arctan2 0 0) (2 * Real.pi)),
            90 - degrees (Real.arccos (1 / Real.sqrt ((0 : ℝ) ^ 2 + 0 ^ 2 + 1 ^ 2)))) ∧
        -90 ≤ 90 - degrees (Real.arccos (1 / Real.sqrt ((0 : ℝ) ^ 2 + 0 ^ 2 + 1 ^ 2))) ∧
        90 - degrees (Real.arccos (1 / Real.sqrt ((0 : ℝ) ^ 2 + 0 ^ 2 + 1 ^ 2))) ≤ 90) :=
  ⟨by norm_num, cartesian_to_spherical_theta_range 0 0 1 (by norm_num)⟩

/-- Witness for polar_roundtrip at (3, 4). -/
theorem polar_roundtrip_witness :
    ((3 : ℝ), (4 : ℝ)) ≠ ((0 : ℝ), (0 : ℝ)) ∧
      polar_to_cartesian (cartesian_to_polar 3 4 none).1
        (cartesian_to_polar 3 4 none).2 = ((3 : ℝ), (4 : ℝ)) :=
  ⟨by norm_num, polar_roundtrip 3 4 (by norm_num)⟩

/-- Euclidean distance in the plane, as computed cellwise by lag_map_2d via
np.sqrt((i - mic[0])**2 + (j - mic[1])**2). -/
noncomputable def dist2 (p q : ℝ × ℝ) : ℝ :=
  Real.sqrt ((p.1 - q.1) ^ 2 + (p.2 - q.2) ^ 2)

/-- Integer grid radius used by lag_map_2d: int(np.round(d * scale / 2)). -/
noncomputable def lagRadius (d scale : ℝ) : ℤ := npRound (d * scale / 2)

/-- Value of one grid cell of lag_map_2d at integer coordinates (i, j), with
the speed of sound already given as c (the source rescales it first through
c *= scale * 100).  none models the np.nan written over masked cells. -/
noncomputable def lagCell (micA micB : ℝ × ℝ) (sr scale c tol : ℝ) (r : ℤ)
    (i j : ℤ) : Option ℝ :=
  let cs := c * (scale * 100)
  if (i : ℝ) ^ 2 + (j : ℝ) ^ 2 > ((r : ℝ) + tol * scale) ^ 2 then none
  else
    some ((npRound ((dist2 ((i : ℝ), (j : ℝ)) micA / cs -
      dist2 ((i : ℝ), (j : ℝ)) micB / cs) * sr) : ℤ) : ℝ)

/-- Embedding of lag_map_2d from src/ghostnote/utils.py.  Row row, column col
of the nested list is the cell at coordinates (i, j) = (-r + col, -r + row),
mirroring np.meshgrid(range(-r, r+1), range(-r, r+1)) with xy indexing. -/
noncomputable def lag_map_2d (micA micB : ℝ × ℝ) (d sr scale c tol : ℝ) :
    List (List (Option ℝ)) :=
  let r := lagRadius d scale
  let n := (2 * r + 1).toNat
  (List.range n).map fun (row : ℕ) =>
    (List.range n).map fun (col : ℕ) =>
      lagCell micA micB sr scale c tol r (-r + (col : ℤ)) (-r + (row : ℤ))

theorem range_map_get {α : Type} (f : ℕ → α) (n k : ℕ) :
    ((List.range n).map f)[k]? = if k < n then some (f k) else none := by
  split
  · next h => rw [List.getElem?_map, List.getElem?_range h, Option.map_some']
  · next h =>
    rw [List.getElem?_eq_none]
    simp only [List.length_map, List.length_range]
    omega

theorem lag_map_2d_entry (micA micB : ℝ × ℝ) (d sr scale c tol : ℝ)
    (row col : ℕ) (rowl : List (Option ℝ)) (cellv : Option ℝ)
    (h1 : (lag_map_2d micA micB d sr scale c tol)[row]? = some rowl)
    (h2 : rowl[col]? = some cellv) :
    row < (2 * lagRadius d scale + 1).toNat ∧
      col < (2 * lagRadius d scale + 1).toNat ∧
      cellv = lagCell micA micB sr scale c tol (lagRadius d scale)
        (-(lagRadius d scale) + (col : ℤ)) (-(lagRadius d scale) + (row : ℤ)) := by
  simp only [lag_map_2d] at h1
  rw [range_map_get] at h1
  split at h1
  · next hrow =>
    rw [Option.some_inj] at h1
    subst h1
    rw [range_map_get] at h2
    split at h2
    · next hcol =>
      rw [Option.some_inj] at h2
      exact ⟨hrow, hcol, h2.symm⟩
    · exact absurd h2 (by simp)
  · exact absurd h1 (by simp)

/-- Claim C1: every cell of lag_map_2d that is not masked out holds
round(sr * (dist((i,j), mic_a) - dist((i,j), mic_b)) / (c * scale * 100)),
where (i, j) = (-r + col, -r + row) are the grid coordinates of the cell. -/
theorem lag_map_2d_value (micA micB : ℝ × ℝ) (d sr scale c tol : ℝ)
    (row col : ℕ) (i j : ℤ) (rowl : List (Option ℝ)) (v : ℝ)
    (hi : i = -(lagRadius d scale) + (col : ℤ))
    (hj : j = -(lagRadius d scale) + (row : ℤ))
    (h1 : (lag_map_2d micA micB d sr scale c tol)[row]? = some rowl)
    (h2 : rowl[col]? = some (some v)) :
    v = ((npRound (sr * (dist2 ((i : ℝ), (j : ℝ)) micA -
      dist2 ((i : ℝ), (j : ℝ)) micB) / (c * scale * 100)) : ℤ) : ℝ) := by
  obtain ⟨hrow, hcol, hcell⟩ :=
    lag_map_2d_entry micA micB d sr scale c tol row col rowl _ h1 h2
  rw [← hi, ← hj] at hcell
  simp only [lagCell] at hcell
  split at hcell
  · exact absurd hcell (by simp)
  · rw [Option.some_inj] at hcell
    rw [hcell]
    congr 2
    ring

/-- Claim C2: when r = round(d * scale / 2) is nonnegative the grid returned by
lag_map_2d is a (2r+1) by (2r+1) square; r = 0 gives a 1 by 1 grid. -/
theorem lag_map_2d_shape (micA micB : ℝ × ℝ) (d sr scale c tol : ℝ)
    (h : 0 ≤ lagRadius d scale) :
    (lag_map_2d micA micB d sr scale c tol).length =
        2 * (lagRadius d scale).toNat + 1 ∧
      (∀ rowl ∈ lag_map_2d micA micB d sr scale c tol,
          rowl.length = 2 * (lagRadius d scale).toNat + 1) ∧
      (lagRadius d scale = 0 →
        (lag_map_2d micA micB d sr scale c tol).length = 1) := by
  have hn : (2 * lagRadius d scale + 1).toNat =
      2 * (lagRadius d scale).toNat + 1 := by omega
  refine ⟨?_, ?_, ?_⟩
  · simp [lag_map_2d, hn]
  · intro rowl hmem
    simp only [lag_map_2d, List.mem_map] at hmem
    obtain ⟨a, _, rfl⟩ := hmem
    simp [hn]
  · intro h0
    simp [lag_map_2d, h0]

/-- Claim C9: with both microphones at the same position every non-undefined cell
of the map returned by lag_map_2d holds 0. -/
theorem lag_map_2d_equal_mics (p : ℝ × ℝ) (d sr scale c tol : ℝ)
    (row col : ℕ) (rowl : List (Option ℝ)) (v : ℝ)
    (h1 : (lag_map_2d p p d sr scale c tol)[row]? = some rowl)
    (h2 : rowl[col]? = some (some v)) :
    v = 0 := by
  obtain ⟨hrow, hcol, hcell⟩ :=
    lag_map_2d_entry p p d sr scale c tol row col rowl _ h1 h2
  simp only [lagCell] at hcell
  split at hcell
  · exact absurd hcell (by simp)
  · rw [Option.some_inj] at hcell
    rw [hcell, sub_self, zero_mul]
    norm_num [npRound, Int.fract]

/-- Claim C3: a cell of the map returned by lag_map_2d is undefined exactly when
i^2 + j^2 > (r + tol * scale)^2 at its grid coordinates (i, j); hence with
tol = 0 and r > 0 the axis cell (r, 0) carries a value while the corner cell
(r, r) is undefined. -/
theorem lag_map_2d_mask (micA micB : ℝ × ℝ) (d sr scale c tol : ℝ) :
    (∀ (row col : ℕ) (rowl : List (Option ℝ)) (cellv : Option ℝ),
        (lag_map_2d micA micB d sr scale c tol)[row]? = some rowl →
        rowl[col]? = some cellv →
        (cellv = none ↔
          ((-(lagRadius d scale) + (col : ℤ) : ℤ) : ℝ) ^ 2 +
              ((-(lagRadius d scale) + (row : ℤ) : ℤ) : ℝ) ^ 2 >
            (((lagRadius d scale) : ℝ) + tol * scale) ^ 2)) ∧
      (0 < lagRadius d scale →
        (∃ rowl v,
            (lag_map_2d micA micB d sr scale c 0)[(lagRadius d scale).toNat]? =
                some rowl ∧
              rowl[(2 * lagRadius d scale).toNat]? = some (some v)) ∧
          ∃ rowl,
            (lag_map_2d micA micB d sr scale c 0)[(2 * lagRadius d scale).toNat]? =
                some rowl ∧
              rowl[(2 * lagRadius d scale).toNat]? = some none) := by
  constructor
  · intro row col rowl cellv h1 h2
    obtain ⟨hrow, hcol, hcell⟩ :=
      lag_map_2d_entry micA micB d sr scale c tol row col rowl _ h1 h2
    rw [hcell]
    simp only [lagCell]
    split
    · next hmask => exact iff_of_true rfl hmask
    · next hmask => exact iff_of_false (by simp) hmask
  · intro hr
    set r := lagRadius d scale with hr_def
    have hrpos : (0 : ℝ) < (r : ℝ) := by exact_mod_cast hr
    have hlt1 : r.toNat < (2 * r + 1).toNat := by omega
    have hlt2 : (2 * r).toNat < (2 * r + 1).toNat := by omega
    have hi2 : -r + (((2 * r).toNat : ℕ) : ℤ) = r := by omega
    have hjr : -r + ((r.toNat : ℕ) : ℤ) = 0 := by omega
    have hmap : ∀ row : ℕ, row < (2 * r + 1).toNat →
        (lag_map_2d micA micB d sr scale c 0)[row]? =
          some ((List.range (2 * r + 1).toNat).map fun (col : ℕ) =>
            lagCell micA micB sr scale c 0 r (-r + (col : ℤ)) (-r + (row : ℤ))) := by
      intro row hrow
      simp only [lag_map_2d, ← hr_def]
      rw [range_map_get, if_pos hrow]
    have hinner : ∀ row col : ℕ, col < (2 * r + 1).toNat →
        ((List.range (2 * r + 1).toNat).map fun (col : ℕ) =>
          lagCell micA micB sr scale c 0 r (-r + (col : ℤ)) (-r + (row : ℤ)))[col]? =
            some (lagCell micA micB sr scale c 0 r (-r + (col : ℤ)) (-r + (row : ℤ))) := by
      intro row col hcol
      rw [range_map_get, if_pos hcol]
    constructor
    · have hcell : ∃ v, lagCell micA micB sr scale c 0 r r 0 = some v := by
        simp only [lagCell]
        rw [if_neg (by push_cast; norm_num)]
        exact ⟨_, rfl⟩
      obtain ⟨v, hv⟩ := hcell
      refine ⟨_, v, hmap r.toNat hlt1, ?_⟩
      rw [hinner r.toNat (2 * r).toNat hlt2, hi2, hjr, hv]
    · refine ⟨_, hmap (2 * r).toNat hlt2, ?_⟩
      rw [hinner (2 * r).toNat (2 * r).toNat hlt2, hi2]
      simp only [lagCell]
      rw [if_pos (by nlinarith)]

theorem lagRadius_zero_eval : lagRadius 0 1 = 0 := by
  norm_num [lagRadius, npRound, Int.fract, round_eq]

theorem lag_map_tiny_eval :
    lag_map_2d ((0 : ℝ), (0 : ℝ)) ((0 : ℝ), (0 : ℝ)) 0 1 1 343 1 =
      [[some 0]] := by
  simp only [lag_map_2d, lagRadius_zero_eval]
  norm_num [lagCell, dist2, npRound, Int.fract, round_eq, List.range_succ]

/-- Witness for lag_map_2d_value on a 1x1 grid with both mics at the
center. -/
theorem lag_map_2d_value_witness :
    (lag_map_2d ((0 : ℝ), (0 : ℝ)) ((0 : ℝ), (0 : ℝ)) 0 1 1 343 1)[0]? =
        some [some 0] ∧
      ([some (0 : ℝ)] : List (Option ℝ))[0]? = some (some 0) ∧
      (0 : ℝ) = ((npRound ((1 : ℝ) *
        (dist2 ((((0 : ℤ)) : ℝ), (((0 : ℤ)) : ℝ)) ((0 : ℝ), (0 : ℝ)) -
          dist2 ((((0 : ℤ)) : ℝ), (((0 : ℤ)) : ℝ)) ((0 : ℝ), (0 : ℝ))) /
        (343 * 1 * 100)) : ℤ) : ℝ) := by
  have h1 : (lag_map_2d ((0 : ℝ), (0 : ℝ)) ((0 : ℝ), (0 : ℝ)) 0 1 1 343 1)[0]? =
      some [some 0] := by
    rw [lag_map_tiny_eval]
    rfl
  have h2 : ([some (0 : ℝ)] : List (Option ℝ))[0]? = some (some 0) := rfl
  refine ⟨h1, h2, ?_⟩
  exact lag_map_2d_value ((0 : ℝ), (0 : ℝ)) ((0 : ℝ), (0 : ℝ)) 0 1 1 343 1
    0 0 0 0 [some 0] 0 (by simp [lagRadius_zero_eval])
    (by simp [lagRadius_zero_eval]) h1 h2

/-- Witness for lag_map_2d_shape at d = 4, scale = 1 (radius 2). -/
theorem lag_map_2d_shape_witness :
    0 ≤ lagRadius 4 1 ∧
      ((lag_map_2d ((0 : ℝ), (0 : ℝ)) ((1 : ℝ), (0 : ℝ)) 4 96000 1 343 1).length =
          2 * (lagRadius 4 1).toNat + 1 ∧
        (∀ rowl ∈ lag_map_2d ((0 : ℝ), (0 : ℝ)) ((1 : ℝ), (0 : ℝ)) 4 96000 1 343 1,
            rowl.length = 2 * (lagRadius 4 1).toNat + 1) ∧
        (lagRadius 4 1 = 0 →
          (lag_map_2d ((0 : ℝ), (0 : ℝ)) ((1 : ℝ), (0 : ℝ)) 4 96000 1 343 1).length = 1)) := by
  have h : 0 ≤ lagRadius 4 1 := by
    norm_num [lagRadius, npRound, Int.fract, round_eq]
  exact ⟨h, lag_map_2d_shape ((0 : ℝ), (0 : ℝ)) ((1 : ℝ), (0 : ℝ)) 4 96000 1 343 1 h⟩

/-- Witness for lag_map_2d_equal_mics on a 1x1 grid. -/
theorem lag_map_2d_equal_mics_witness :
    (lag_map_2d ((0 : ℝ), (0 : ℝ)) ((0 : ℝ), (0 : ℝ)) 0 1 1 343 1)[0]? =
        some [some 0] ∧
      ([some (0 : ℝ)] : List (Option ℝ))[0]? = some (some 0) ∧ (0 : ℝ) = 0 := by
  have h1 : (lag_map_2d ((0 : ℝ), (0 : ℝ)) ((0 : ℝ), (0 : ℝ)) 0 1 1 343 1)[0]? =
      some [some 0] := by
    rw [lag_map_tiny_eval]
    rfl
  exact ⟨h1, rfl,
    lag_map_2d_equal_mics ((0 : ℝ), (0 : ℝ)) 0 1 1 343 1 0 0 [some 0] 0 h1 rfl⟩

/-- Witness for lag_map_2d_mask at d = 2, scale = 1 (radius 1), tol = 0. -/
theorem lag_map_2d_mask_witness :
    0 < lagRadius 2 1 ∧
      ((∃ rowl v,
          (lag_map_2d ((0 : ℝ), (0 : ℝ)) ((0 : ℝ), (0 : ℝ)) 2 1 1 343 0)[(lagRadius 2 1).toNat]? =
              some rowl ∧
            rowl[(2 * lagRadius 2 1).toNat]? = some (some v)) ∧
        ∃ rowl,
          (lag_map_2d ((0 : ℝ), (0 : ℝ)) ((0 : ℝ), (0 : ℝ)) 2 1 1 343 0)[(2 * lagRadius 2 1).toNat]? =
              some rowl ∧
            rowl[(2 * lagRadius 2 1).toNat]? = some none) := by
  have h : 0 < lagRadius 2 1 := by
    norm_num [lagRadius, npRound, Int.fract, round_eq]
  exact ⟨h, (lag_map_2d_mask ((0 : ℝ), (0 : ℝ)) ((0 : ℝ), (0 : ℝ)) 2 1 1 343 0).2 h⟩

end Ghostnote
